import Mathlib

/-!
Verification of the devtool-rs concurrent scheduler and progress state machine.

This file gives a shallow embedding of the core of the repository:
the dependency graph and parallel scheduler of `src/parallel/mod.rs`, and the
progress state machine and progress-bar manager of `src/ui/progress.rs`.
Rust HashMaps are modelled as association lists, HashSets as lists used up to
membership, and the asynchronous polling loop as a fuelled iteration of a
deterministic step function in which each spawned task carries the number of
polling rounds until it is observed finished (a latency oracle resolving the
nondeterminism of real time).  The opaque task function is a parameter
`Tool → Except String TaskResult`, whose `error` case models an update
future that resolves to `Err(..)`.
-/

namespace Devtool

/-- The closed set of update targets (`enum Tool` in `src/parallel/mod.rs`). -/
inductive Tool where
  | Homebrew
  | Rustup
  | Mise
deriving DecidableEq

/-- Display name of a tool (`Tool::display_name`). -/
def Tool.display_name : Tool → String
  | Tool.Homebrew => "Homebrew"
  | Tool.Rustup => "Rustup"
  | Tool.Mise => "Mise"

/-- Association-list model of `HashMap<Tool, β>` lookup (`HashMap::get`). -/
def lookupKey {β : Type} : List (Tool × β) → Tool → Option β
  | [], _ => none
  | p :: rest, k => if p.1 = k then some p.2 else lookupKey rest k

/-- Association-list model of `HashMap::insert` (overwrite an existing key,
otherwise append). -/
def insertKey {β : Type} : List (Tool × β) → Tool → β → List (Tool × β)
  | [], k, v => [(k, v)]
  | p :: rest, k, v => if p.1 = k then (k, v) :: rest else p :: insertKey rest k v

/-- Set-style insertion modelling `HashSet::insert`. -/
def insertTool (l : List Tool) (t : Tool) : List Tool :=
  if t ∈ l then l else t :: l

@[simp] theorem lookupKey_nil {β : Type} (k : Tool) :
    lookupKey ([] : List (Tool × β)) k = none := rfl

theorem lookupKey_cons {β : Type} (p : Tool × β) (rest : List (Tool × β)) (k : Tool) :
    lookupKey (p :: rest) k = if p.1 = k then some p.2 else lookupKey rest k := rfl

theorem lookupKey_insertKey_self {β : Type} (l : List (Tool × β)) (k : Tool) (v : β) :
    lookupKey (insertKey l k v) k = some v := by
  induction l with
  | nil => simp [insertKey, lookupKey]
  | cons p rest ih =>
    by_cases h : p.1 = k
    · simp [insertKey, h, lookupKey]
    · simp [insertKey, h, lookupKey_cons, ih]

theorem lookupKey_insertKey_ne {β : Type} (l : List (Tool × β)) (k k' : Tool) (v : β)
    (hne : k ≠ k') : lookupKey (insertKey l k v) k' = lookupKey l k' := by
  induction l with
  | nil => simp [insertKey, lookupKey_cons, hne]
  | cons p rest ih =>
    by_cases h : p.1 = k
    · simp [insertKey, h, lookupKey_cons, hne]
    · simp [insertKey, h, lookupKey_cons, ih]

theorem mem_insertTool (l : List Tool) (t x : Tool) :
    x ∈ insertTool l t ↔ x = t ∨ x ∈ l := by
  unfold insertTool
  by_cases h : t ∈ l
  · simp [h]
    intro he; rw [he]; exact h
  · simp [h]

theorem subset_insertTool (l : List Tool) (t : Tool) : l ⊆ insertTool l t := by
  intro x hx; rw [mem_insertTool]; exact Or.inr hx

/-- Dependency graph of `src/parallel/mod.rs` (`struct DependencyGraph`): a
map from a tool to the tools that must complete before it, and the reverse
index. -/
structure DependencyGraph where
  dependencies : List (Tool × List Tool)
  reverse_dependencies : List (Tool × List Tool)

/-- Constructor `DependencyGraph::new`: both maps empty. -/
def DependencyGraph.new : DependencyGraph :=
  { dependencies := [], reverse_dependencies := [] }

/-- The `Default` impl of `DependencyGraph` builds `new` and declares no
dependencies. -/
def DependencyGraph.default : DependencyGraph := DependencyGraph.new

/-- Declared dependency list of a tool; a tool absent from the map has no
declared dependencies. -/
def DependencyGraph.depsOf (g : DependencyGraph) (t : Tool) : List Tool :=
  (lookupKey g.dependencies t).getD []

/-- The readiness test used by `get_ready_tools`: the dependency list is
empty by construction or the tool is absent from the map
(`.map(|deps| deps.is_empty()).unwrap_or(true)`). -/
def DependencyGraph.dep_free (g : DependencyGraph) (t : Tool) : Bool :=
  match lookupKey g.dependencies t with
  | some deps => deps.isEmpty
  | none => true

/-- Model of `DependencyGraph::get_ready_tools`: the available tools whose
dependency list is empty or absent. -/
def DependencyGraph.get_ready_tools (g : DependencyGraph) (available_tools : List Tool) :
    List Tool :=
  available_tools.filter fun t => g.dep_free t

/-- Model of `DependencyGraph::get_dependent_tools`: reverse-index lookup,
defaulting to the empty list. -/
def DependencyGraph.get_dependent_tools (g : DependencyGraph) (t : Tool) : List Tool :=
  (lookupKey g.reverse_dependencies t).getD []

/-- Model of `DependencyGraph::can_execute`: all declared dependencies are in
the completed set; `unwrap_or(true)` when the tool is absent from the map. -/
def DependencyGraph.can_execute (g : DependencyGraph) (t : Tool) (completed : List Tool) :
    Bool :=
  match lookupKey g.dependencies t with
  | some deps => deps.all fun d => decide (d ∈ completed)
  | none => true

theorem can_execute_iff (g : DependencyGraph) (t : Tool) (completed : List Tool) :
    g.can_execute t completed = true ↔ ∀ d ∈ g.depsOf t, d ∈ completed := by
  unfold DependencyGraph.can_execute DependencyGraph.depsOf
  cases h : lookupKey g.dependencies t with
  | none => simp
  | some deps => simp [List.all_eq_true]

theorem dep_free_of_can_execute_nil (g : DependencyGraph) (t : Tool)
    (h : g.can_execute t [] = true) : g.dep_free t = true := by
  unfold DependencyGraph.can_execute at h
  unfold DependencyGraph.dep_free
  cases hl : lookupKey g.dependencies t with
  | none => rfl
  | some deps =>
    rw [hl] at h
    simp [List.all_eq_true] at h
    simp [List.isEmpty_iff, List.eq_nil_iff_forall_not_mem]
    exact h

theorem can_execute_of_deps_subset (g : DependencyGraph) (t : Tool) (completed : List Tool)
    (h : ∀ d ∈ g.depsOf t, d ∈ completed) : g.can_execute t completed = true :=
  (can_execute_iff g t completed).mpr h

/-- C8: `can_execute` is total and returns true exactly when every declared
dependency is completed; a tool absent from the dependency map is treated as
dependency-free by `can_execute` and `get_ready_tools`, and a tool absent
from the reverse map has no dependents.  (spec section 4.1) -/
theorem can_execute_total_correct (g : DependencyGraph) (t : Tool) (completed : List Tool)
    (available : List Tool) :
    (g.can_execute t completed = true ↔ ∀ d ∈ g.depsOf t, d ∈ completed) ∧
    (lookupKey g.dependencies t = none →
      g.depsOf t = [] ∧ g.can_execute t completed = true ∧
      (t ∈ available → t ∈ g.get_ready_tools available)) ∧
    (lookupKey g.reverse_dependencies t = none → g.get_dependent_tools t = []) := by
  refine ⟨can_execute_iff g t completed, fun habs => ⟨?_, ?_, ?_⟩, fun habs => ?_⟩
  · unfold DependencyGraph.depsOf; rw [habs]; rfl
  · unfold DependencyGraph.can_execute; rw [habs]
  · intro hmem
    unfold DependencyGraph.get_ready_tools
    rw [List.mem_filter]
    refine ⟨hmem, ?_⟩
    unfold DependencyGraph.dep_free; rw [habs]
  · unfold DependencyGraph.get_dependent_tools; rw [habs]; rfl

/-- Witness for C8 at a concrete input: the empty graph with tool `Homebrew`. -/
theorem can_execute_total_correct_witness :
    DependencyGraph.new.can_execute Tool.Homebrew [] = true ∧
    DependencyGraph.new.get_dependent_tools Tool.Homebrew = [] :=
  ⟨((can_execute_total_correct DependencyGraph.new Tool.Homebrew [] []).2.1 rfl).2.1,
   (can_execute_total_correct DependencyGraph.new Tool.Homebrew [] []).2.2 rfl⟩

/-- Progress states of `src/ui/progress.rs` (`enum ProgressState`). -/
inductive ProgressState where
  | Preparing
  | Executing
  | ExecutingMid
  | ExecutingLate
  | Completed
  | Failed
deriving DecidableEq

/-- Model of `ProgressState::progress_percentage`. -/
def ProgressState.progress_percentage : ProgressState → Nat
  | ProgressState.Preparing => 0
  | ProgressState.Executing => 25
  | ProgressState.ExecutingMid => 50
  | ProgressState.ExecutingLate => 75
  | ProgressState.Completed => 100
  | ProgressState.Failed => 100

/-- Model of `ProgressState::display_message`; the success and failure icons
of `IconManager` depend only on environment variables and are abstracted as
the string parameters `successIcon` and `failureIcon`. -/
def ProgressState.display_message (s : ProgressState) (tool_name : String)
    (successIcon failureIcon : String) : String :=
  match s with
  | ProgressState.Preparing => tool_name ++ " 准备中..."
  | ProgressState.Executing => tool_name ++ " 执行中..."
  | ProgressState.ExecutingMid => tool_name ++ " 执行中..."
  | ProgressState.ExecutingLate => tool_name ++ " 执行中..."
  | ProgressState.Completed => successIcon ++ " " ++ tool_name ++ " 完成"
  | ProgressState.Failed => failureIcon ++ " " ++ tool_name ++ " 失败"

/-- Model of `ProgressState::is_valid_transition`, clause for clause. -/
def ProgressState.is_valid_transition : ProgressState → ProgressState → Bool
  | ProgressState.Preparing, ProgressState.Executing => true
  | ProgressState.Executing, ProgressState.ExecutingMid => true
  | ProgressState.ExecutingMid, ProgressState.ExecutingLate => true
  | ProgressState.Executing, ProgressState.Completed => true
  | ProgressState.Executing, ProgressState.Failed => true
  | ProgressState.ExecutingMid, ProgressState.Completed => true
  | ProgressState.ExecutingMid, ProgressState.Failed => true
  | ProgressState.ExecutingLate, ProgressState.Completed => true
  | ProgressState.ExecutingLate, ProgressState.Failed => true
  | ProgressState.Completed, _ => false
  | ProgressState.Failed, _ => false
  | _, _ => false

/-- Transition-validity table transcribed from spec section 4.2, row by row;
this is the specification-side definition that `is_valid_transition` is
compared against. -/
def specTransitionAllowed : ProgressState → ProgressState → Bool
  | ProgressState.Preparing, ProgressState.Executing => true
  | ProgressState.Executing, ProgressState.ExecutingMid => true
  | ProgressState.Executing, ProgressState.Completed => true
  | ProgressState.Executing, ProgressState.Failed => true
  | ProgressState.ExecutingMid, ProgressState.ExecutingLate => true
  | ProgressState.ExecutingMid, ProgressState.Completed => true
  | ProgressState.ExecutingMid, ProgressState.Failed => true
  | ProgressState.ExecutingLate, ProgressState.Completed => true
  | ProgressState.ExecutingLate, ProgressState.Failed => true
  | _, _ => false

/-- Fixed percentages as listed in spec sections 3 and 4.2. -/
def specPercentage : ProgressState → Nat
  | ProgressState.Preparing => 0
  | ProgressState.Executing => 25
  | ProgressState.ExecutingMid => 50
  | ProgressState.ExecutingLate => 75
  | ProgressState.Completed => 100
  | ProgressState.Failed => 100

/-- C4: for every ordered pair of distinct states, `is_valid_transition`
agrees with the transition-validity table of spec section 4.2, and every
state carries its fixed percentage. -/
theorem is_valid_transition_matches_table :
    (∀ a b : ProgressState, a ≠ b →
      (a.is_valid_transition b = true ↔ specTransitionAllowed a b = true)) ∧
    ∀ s : ProgressState, s.progress_percentage = specPercentage s := by
  constructor
  · intro a b _
    cases a <;> cases b <;> simp [ProgressState.is_valid_transition, specTransitionAllowed]
  · intro s; cases s <;> rfl

/-- Witness for C4 at the concrete pair `(Preparing, Executing)` and the
concrete state `Executing`. -/
theorem is_valid_transition_matches_table_witness :
    (ProgressState.Preparing.is_valid_transition ProgressState.Executing = true ↔
      specTransitionAllowed ProgressState.Preparing ProgressState.Executing = true) ∧
    ProgressState.Executing.progress_percentage = specPercentage ProgressState.Executing :=
  ⟨is_valid_transition_matches_table.1 ProgressState.Preparing ProgressState.Executing
      (by decide),
   is_valid_transition_matches_table.2 ProgressState.Executing⟩

/-- Displayed content of one visual indicator (`indicatif::ProgressBar`): its
position and message. -/
structure Bar where
  position : Nat
  message : String
deriving DecidableEq

/-- Model of `ProgressBarManager` in `src/ui/progress.rs`: the per-tool
indicator map, the per-tool state map, the created-tools set (shared through
a process-wide static in the source) and the instance counter.  The
`Instant`-based animation manager is abstracted away; the animation progress
it would report is supplied to `update_state` as an oracle. -/
structure ProgressBarManager where
  progress_bars : List (Tool × Bar)
  states : List (Tool × ProgressState)
  created_tools : List Tool
  instance_count : Nat
deriving DecidableEq

/-- Model of `ProgressBarManager::new` in a fresh process: empty maps and an
empty global created-tools set. -/
def ProgressBarManager.new : ProgressBarManager :=
  { progress_bars := [], states := [], created_tools := [], instance_count := 0 }

/-- One iteration of the creation loop of `create_progress_bars` in the
interactive path: skip if the tool already owns a bar, skip if it was already
claimed in the created-tools set, otherwise claim it, add a bar at position 0
with the preparing message, record state `Preparing` and bump the counter. -/
def createOne (m : ProgressBarManager) (t : Tool) : ProgressBarManager :=
  if (lookupKey m.progress_bars t).isSome then m
  else if t ∈ m.created_tools then m
  else
    { progress_bars :=
        insertKey m.progress_bars t
          { position := 0, message := t.display_name ++ " 准备中..." },
      states := insertKey m.states t ProgressState.Preparing,
      created_tools := t :: m.created_tools,
      instance_count := m.instance_count + 1 }

/-- Model of `ProgressBarManager::create_progress_bars`; `is_interactive` is
the result of the environment check (TERM not dumb and stdout a tty).  In the
non-interactive path every listed tool's state is unconditionally written to
`Preparing` and no bar is created; in the interactive path each tool goes
through `createOne`. -/
def ProgressBarManager.create_progress_bars (m : ProgressBarManager)
    (is_interactive : Bool) (tools : List Tool) : ProgressBarManager :=
  match is_interactive with
  | false =>
    { m with
      states := tools.foldl (fun st t => insertKey st t ProgressState.Preparing) m.states }
  | true => tools.foldl createOne m

/-- Model of `ProgressBarManager::update_state`.  The transition is first
validated against the tracked state when one exists; an invalid transition
only logs a warning and leaves the manager untouched.  In the non-interactive
path only the state map is written.  Otherwise, when the tool owns a bar, the
bar's position becomes the animation progress (oracle `animPos`) for the
three executing states or the fixed percentage, and its message the display
message; the state map is written in every non-rejected case. -/
def ProgressBarManager.update_state (m : ProgressBarManager) (is_interactive : Bool)
    (animPos : ProgressState → Nat) (successIcon failureIcon : String)
    (tool : Tool) (new_state : ProgressState) : ProgressBarManager :=
  let proceed : ProgressBarManager :=
    match is_interactive with
    | false => { m with states := insertKey m.states tool new_state }
    | true =>
      let m1 :=
        match lookupKey m.progress_bars tool with
        | some _ =>
          let pos :=
            if new_state = ProgressState.Executing ∨ new_state = ProgressState.ExecutingMid ∨
                new_state = ProgressState.ExecutingLate then
              animPos new_state
            else new_state.progress_percentage
          { m with
            progress_bars :=
              insertKey m.progress_bars tool
                { position := pos,
                  message :=
                    new_state.display_message tool.display_name successIcon failureIcon } }
        | none => m
      { m1 with states := insertKey m1.states tool new_state }
  match lookupKey m.states tool with
  | some current_state =>
    if current_state.is_valid_transition new_state = false then m else proceed
  | none => proceed

/-- C5: an invalid requested transition for a tool registered in the state
map leaves the manager (stored state and indicator) unchanged; in particular
a tool whose current state is terminal (`Completed` or `Failed`) rejects
every further `update_state` call with no observable effect. -/
theorem update_state_rejects_invalid (m : ProgressBarManager) (i : Bool)
    (ap : ProgressState → Nat) (sIcon fIcon : String) (tool : Tool)
    (ns cur : ProgressState) (hcur : lookupKey m.states tool = some cur) :
    (cur.is_valid_transition ns = false → m.update_state i ap sIcon fIcon tool ns = m) ∧
    (cur = ProgressState.Completed ∨ cur = ProgressState.Failed →
      m.update_state i ap sIcon fIcon tool ns = m) := by
  have base : cur.is_valid_transition ns = false →
      m.update_state i ap sIcon fIcon tool ns = m := by
    intro hinv
    unfold ProgressBarManager.update_state
    rw [hcur]
    simp [hinv]
  refine ⟨base, fun hterm => base ?_⟩
  rcases hterm with h | h <;> rw [h] <;> cases ns <;> rfl

/-- Witness for C5: a manager tracking `Homebrew` in state `Completed`
rejects a requested transition to `Executing`. -/
theorem update_state_rejects_invalid_witness :
    ({ progress_bars := [], states := [(Tool.Homebrew, ProgressState.Completed)],
       created_tools := [], instance_count := 0 } : ProgressBarManager).update_state
        true (fun _ => 0) "v" "x" Tool.Homebrew ProgressState.Executing =
      { progress_bars := [], states := [(Tool.Homebrew, ProgressState.Completed)],
        created_tools := [], instance_count := 0 } :=
  (update_state_rejects_invalid
      { progress_bars := [], states := [(Tool.Homebrew, ProgressState.Completed)],
        created_tools := [], instance_count := 0 }
      true (fun _ => 0) "v" "x" Tool.Homebrew
      ProgressState.Executing ProgressState.Completed rfl).2 (Or.inl rfl)

/-- C10: for a tool with no entry in the state map, `update_state` performs
no validity check and unconditionally records the requested state, whatever
it is — including `Completed` or `Failed` directly. -/
theorem update_state_unregistered_records_any (m : ProgressBarManager) (i : Bool)
    (ap : ProgressState → Nat) (sIcon fIcon : String) (tool : Tool) (ns : ProgressState)
    (hnone : lookupKey m.states tool = none) :
    lookupKey (m.update_state i ap sIcon fIcon tool ns).states tool = some ns := by
  unfold ProgressBarManager.update_state
  rw [hnone]
  cases i with
  | false => simp [lookupKey_insertKey_self]
  | true => cases hb : lookupKey m.progress_bars tool <;> simp [hb, lookupKey_insertKey_self]

/-- Witness for C10: a fresh manager accepts `Failed` as the first recorded
state of an unregistered tool. -/
theorem update_state_unregistered_records_any_witness :
    lookupKey (ProgressBarManager.new.update_state true (fun _ => 0) "v" "x"
        Tool.Homebrew ProgressState.Failed).states Tool.Homebrew =
      some ProgressState.Failed :=
  update_state_unregistered_records_any ProgressBarManager.new true (fun _ => 0) "v" "x"
    Tool.Homebrew ProgressState.Failed rfl

theorem createOne_skip (m : ProgressBarManager) (t : Tool)
    (h : (lookupKey m.progress_bars t).isSome = true ∨ t ∈ m.created_tools) :
    createOne m t = m := by
  unfold createOne
  by_cases hb : (lookupKey m.progress_bars t).isSome = true
  · simp [hb]
  · rcases h with h | h
    · exact absurd h hb
    · simp [hb, h]

theorem lookup_foldl_insert_not_mem (us : List Tool) (st : List (Tool × ProgressState))
    (t : Tool) (h : t ∉ us) :
    lookupKey (us.foldl (fun acc u => insertKey acc u ProgressState.Preparing) st) t =
      lookupKey st t := by
  induction us generalizing st with
  | nil => rfl
  | cons u rest ih =>
    have hu : t ≠ u := fun he => h (he ▸ List.mem_cons_self u rest)
    have hr : t ∉ rest := fun hm => h (List.mem_cons_of_mem u hm)
    simp only [List.foldl_cons]
    rw [ih _ hr, lookupKey_insertKey_ne _ _ _ _ (fun he => hu he.symm)]

theorem lookup_foldl_insert_mem (tools : List Tool) (st : List (Tool × ProgressState))
    (t : Tool) (h : t ∈ tools) :
    lookupKey (tools.foldl (fun acc u => insertKey acc u ProgressState.Preparing) st) t =
      some ProgressState.Preparing := by
  induction tools generalizing st with
  | nil => cases h
  | cons u rest ih =>
    simp only [List.foldl_cons]
    by_cases hr : t ∈ rest
    · exact ih _ hr
    · have ht : t = u := by
        rcases List.mem_cons.mp h with h1 | h1
        · exact h1
        · exact absurd h1 hr
      rw [lookup_foldl_insert_not_mem rest _ t hr, ht, lookupKey_insertKey_self]

/-- C7 (amended): in the interactive path, re-registering tools that already
own a bar or are already claimed in the created-tools set is a no-op; in the
non-interactive path no indicator is ever created, but registration
unconditionally (re)sets every listed tool's tracked state to `Preparing`. -/
theorem create_progress_bars_idempotence_amended :
    (∀ (m : ProgressBarManager) (tools : List Tool),
      (∀ t ∈ tools, (lookupKey m.progress_bars t).isSome = true ∨ t ∈ m.created_tools) →
      m.create_progress_bars true tools = m) ∧
    (∀ (m : ProgressBarManager) (tools : List Tool) (t : Tool), t ∈ tools →
      lookupKey (m.create_progress_bars false tools).states t =
        some ProgressState.Preparing ∧
      (m.create_progress_bars false tools).progress_bars = m.progress_bars) := by
  constructor
  · intro m tools h
    unfold ProgressBarManager.create_progress_bars
    induction tools generalizing m with
    | nil => rfl
    | cons u rest ih =>
      simp only [List.foldl_cons]
      rw [createOne_skip m u (h u (List.mem_cons_self u rest))]
      exact ih m fun t ht => h t (List.mem_cons_of_mem u ht)
  · intro m tools t ht
    exact ⟨lookup_foldl_insert_mem tools m.states t ht, rfl⟩

/-- Witness for C7: re-registering a tool that already owns a bar leaves the
manager unchanged, and non-interactive registration of a fresh manager tracks
state `Preparing`. -/
theorem create_progress_bars_idempotence_amended_witness :
    ({ progress_bars := [(Tool.Homebrew, { position := 0, message := "m" })],
       states := [(Tool.Homebrew, ProgressState.Preparing)],
       created_tools := [Tool.Homebrew], instance_count := 1 } :
        ProgressBarManager).create_progress_bars true [Tool.Homebrew] =
      { progress_bars := [(Tool.Homebrew, { position := 0, message := "m" })],
        states := [(Tool.Homebrew, ProgressState.Preparing)],
        created_tools := [Tool.Homebrew], instance_count := 1 } ∧
    lookupKey (ProgressBarManager.new.create_progress_bars false [Tool.Homebrew]).states
        Tool.Homebrew = some ProgressState.Preparing :=
  ⟨create_progress_bars_idempotence_amended.1 _ [Tool.Homebrew]
      (by intro t htl; rw [List.mem_singleton] at htl; subst htl; left; rfl),
   (create_progress_bars_idempotence_amended.2 ProgressBarManager.new [Tool.Homebrew]
      Tool.Homebrew (List.mem_singleton.mpr rfl)).1⟩

/-- Counterexample to C7 as stated: in the non-interactive path, registering
`Homebrew`, validly moving it to `Executing`, then registering it again
resets the tracked state back to `Preparing` — the second registration is not
a no-op on the tracked state. -/
theorem reregister_resets_state_noninteractive :
    lookupKey (((ProgressBarManager.new.create_progress_bars false
          [Tool.Homebrew]).update_state false (fun _ => 0) "v" "x" Tool.Homebrew
          ProgressState.Executing).states) Tool.Homebrew =
      some ProgressState.Executing ∧
    lookupKey ((((ProgressBarManager.new.create_progress_bars false
          [Tool.Homebrew]).update_state false (fun _ => 0) "v" "x" Tool.Homebrew
          ProgressState.Executing).create_progress_bars false
          [Tool.Homebrew]).states) Tool.Homebrew =
      some ProgressState.Preparing :=
  ⟨rfl, rfl⟩

/-- Task execution result (`struct TaskResult` in `src/parallel/mod.rs`). -/
structure TaskResult where
  tool : Tool
  success : Bool
  output : String
deriving DecidableEq

/-- Model of `ParallelScheduler`: the shared completed set and the dependency
graph owned by the scheduler. -/
structure ParallelScheduler where
  completed_tools : List Tool
  dependency_graph : DependencyGraph

/-- Model of `ParallelScheduler::new`: the `_max_concurrent` parameter is
accepted and discarded (the semaphore was removed from the source); the
completed set starts empty and the graph is `DependencyGraph::default`. -/
def ParallelScheduler.new (_max_concurrent : Nat) : ParallelScheduler :=
  { completed_tools := [], dependency_graph := DependencyGraph.default }

/-- State of one `execute_parallel` polling loop: the pending set, the
running tasks (each paired with the number of polling rounds until it is
observed finished — a latency oracle standing in for real time), the shared
completed set, and the results collected so far. -/
structure SchedState where
  pending : List Tool
  running : List (Tool × Nat)
  completed : List Tool
  results : List TaskResult
deriving DecidableEq

/-- One candidate check of the dependent-unlock scan (lines 154-167 of
`src/parallel/mod.rs`): a dependent still pending whose dependencies are all
completed is removed from pending and launched. -/
def dependentCheck (g : DependencyGraph) (lat : Tool → Nat) (s1 : SchedState) (d : Tool) :
    SchedState :=
  if d ∈ s1.pending ∧ g.can_execute d s1.completed = true then
    { s1 with pending := s1.pending.erase d, running := s1.running ++ [(d, lat d)] }
  else s1

/-- The dependent-unlock scan run after a completed task: every dependent of
the completed tool is checked in declaration order. -/
def launchDependents (g : DependencyGraph) (lat : Tool → Nat) (rtool : Tool)
    (s : SchedState) : SchedState :=
  (g.get_dependent_tools rtool).foldl (dependentCheck g lat) s

/-- Processing of one finished task (lines 141-170): the awaited outcome is
appended to the results and its tool inserted into the completed set only
when the task resolved to `Ok`; an `Err` resolution is silently discarded
(`if let Ok(result) = task.await?`).  In both cases the handle was already
removed from the running vector. -/
def processOne (g : DependencyGraph) (fn : Tool → Except String TaskResult)
    (lat : Tool → Nat) (s : SchedState) (t : Tool) : SchedState :=
  match fn t with
  | Except.error _ => s
  | Except.ok r =>
    launchDependents g lat r.tool
      { s with results := s.results ++ [r], completed := insertTool s.completed r.tool }

/-- Completion phase of one polling iteration: the finished running tasks
(remaining count zero) are removed from the running vector and processed in
descending index order, matching the source's reverse removal. -/
def completePhase (g : DependencyGraph) (fn : Tool → Except String TaskResult)
    (lat : Tool → Nat) (s : SchedState) : SchedState :=
  (((s.running.filter fun p => decide (p.2 = 0)).map Prod.fst).reverse).foldl
    (processOne g fn lat)
    { s with running := s.running.filter fun p => !decide (p.2 = 0) }

/-- Ready-scan phase (lines 172-184): every dependency-free pending tool is
removed from pending and launched. -/
def launchPhase (g : DependencyGraph) (lat : Tool → Nat) (s1 : SchedState) : SchedState :=
  { s1 with
    pending := s1.pending.filter fun t => !g.dep_free t,
    running := s1.running ++ (g.get_ready_tools s1.pending).map fun t => (t, lat t) }

/-- Sleep phase: one polling interval elapses, so every running task's
remaining count drops by one. -/
def tickPhase (s2 : SchedState) : SchedState :=
  { s2 with running := s2.running.map fun p => (p.1, p.2 - 1) }

/-- One iteration of the polling loop of `execute_parallel`: process finished
tasks (unlocking dependents), launch the dependency-free pending tools, let
one polling interval elapse. -/
def step (g : DependencyGraph) (fn : Tool → Except String TaskResult) (lat : Tool → Nat)
    (s : SchedState) : SchedState :=
  tickPhase (launchPhase g lat (completePhase g fn lat s))

/-- The polling loop of `execute_parallel`, fuelled: `none` means the loop
was still live after the given number of iterations (the source would keep
polling). -/
def runLoop (g : DependencyGraph) (fn : Tool → Except String TaskResult)
    (lat : Tool → Nat) : Nat → SchedState → Option (List TaskResult)
  | 0, s => if s.pending.isEmpty ∧ s.running.isEmpty then some s.results else none
  | fuel + 1, s =>
    if s.pending.isEmpty ∧ s.running.isEmpty then some s.results
    else runLoop g fn lat fuel (step g fn lat s)

/-- Iterated polling steps; `stepN n` is the loop state after `n`
iterations. -/
def stepN (g : DependencyGraph) (fn : Tool → Except String TaskResult) (lat : Tool → Nat) :
    Nat → SchedState → SchedState
  | 0, s => s
  | n + 1, s => stepN g fn lat n (step g fn lat s)

/-- Model of `ParallelScheduler::execute_parallel`: the supplied tool vector
is collected into a set (`dedup`), and the loop runs over the scheduler's
shared completed set and dependency graph. -/
def ParallelScheduler.execute_parallel (sched : ParallelScheduler) (fuel : Nat)
    (tools : List Tool) (fn : Tool → Except String TaskResult) (lat : Tool → Nat) :
    Option (List TaskResult) :=
  runLoop sched.dependency_graph fn lat fuel
    { pending := tools.dedup, running := [], completed := sched.completed_tools,
      results := [] }

/-- C9: the max-concurrent constructor parameter never influences
`execute_parallel`: two schedulers built with different limits behave
identically on every input (same fuel, tools, task function and latencies). -/
theorem max_concurrent_inert (m1 m2 : Nat) (fuel : Nat) (tools : List Tool)
    (fn : Tool → Except String TaskResult) (lat : Tool → Nat) :
    (ParallelScheduler.new m1).execute_parallel fuel tools fn lat =
      (ParallelScheduler.new m2).execute_parallel fuel tools fn lat := rfl

/-- Counterexample to C1 as stated: one supplied task whose task function
resolves to `Err` yields an empty outcome list — zero outcomes for one
supplied id, so an erroring task is silently dropped rather than reported. -/
theorem execute_parallel_drops_error_outcome :
    (ParallelScheduler.new 4).execute_parallel 3 [Tool.Homebrew]
        (fun _ => Except.error "task failed") (fun _ => 0) = some [] ∧
    [Tool.Homebrew].length = 1 :=
  ⟨rfl, rfl⟩

/-- C2 at the failing input: a task function resolving to `Err("boom")` is
not converted into a failure outcome — the run returns an empty list with no
`success=false` record carrying the error text, because the `Err` branch of
`if let Ok(result) = task.await?` is silently skipped (and a panicking task
would make `task.await?` abort the whole loop instead of being caught). -/
theorem execute_parallel_discards_error_result :
    (ParallelScheduler.new 4).execute_parallel 3 [Tool.Rustup]
        (fun _ => Except.error "boom") (fun _ => 0) = some [] := rfl

/-- Causal-ordering invariant: every running (launched, not yet reaped) task
has all of its declared dependencies in the completed set. -/
def launchInv (g : DependencyGraph) (s : SchedState) : Prop :=
  ∀ p ∈ s.running, ∀ d ∈ g.depsOf p.1, d ∈ s.completed

theorem dep_free_depsOf (g : DependencyGraph) (t : Tool) (h : g.dep_free t = true) :
    g.depsOf t = [] := by
  unfold DependencyGraph.dep_free at h
  unfold DependencyGraph.depsOf
  cases hl : lookupKey g.dependencies t with
  | none => rfl
  | some deps =>
    rw [hl] at h
    simpa [List.isEmpty_iff] using h

theorem foldDep_completed (g : DependencyGraph) (lat : Tool → Nat) (l : List Tool)
    (s : SchedState) :
    (l.foldl (dependentCheck g lat) s).completed = s.completed := by
  induction l generalizing s with
  | nil => rfl
  | cons d rest ih =>
    simp only [List.foldl_cons]
    rw [ih]
    unfold dependentCheck
    by_cases h : d ∈ s.pending ∧ g.can_execute d s.completed = true <;> simp [h]

theorem foldDep_results (g : DependencyGraph) (lat : Tool → Nat) (l : List Tool)
    (s : SchedState) :
    (l.foldl (dependentCheck g lat) s).results = s.results := by
  induction l generalizing s with
  | nil => rfl
  | cons d rest ih =>
    simp only [List.foldl_cons]
    rw [ih]
    unfold dependentCheck
    by_cases h : d ∈ s.pending ∧ g.can_execute d s.completed = true <;> simp [h]

theorem foldDep_launchInv (g : DependencyGraph) (lat : Tool → Nat) (l : List Tool)
    (s : SchedState) (hs : launchInv g s) :
    launchInv g (l.foldl (dependentCheck g lat) s) := by
  induction l generalizing s with
  | nil => exact hs
  | cons c rest ih =>
    simp only [List.foldl_cons]
    refine ih _ ?_
    unfold dependentCheck
    by_cases h : c ∈ s.pending ∧ g.can_execute c s.completed = true
    · simp only [h, if_pos]
      intro p hp d hd
      rcases List.mem_append.mp hp with hp1 | hp1
      · exact hs p hp1 d hd
      · rw [List.mem_singleton] at hp1
        subst hp1
        exact (can_execute_iff g c s.completed).mp h.2 d hd
    · simp only [h, if_neg, not_false_iff]
      exact hs

theorem processOne_completed_mono (g : DependencyGraph)
    (fn : Tool → Except String TaskResult) (lat : Tool → Nat) (s : SchedState) (t : Tool) :
    s.completed ⊆ (processOne g fn lat s t).completed := by
  unfold processOne
  cases fn t with
  | error e => exact fun x hx => hx
  | ok r =>
    unfold launchDependents
    rw [foldDep_completed]
    exact subset_insertTool s.completed r.tool

theorem processOne_launchInv (g : DependencyGraph)
    (fn : Tool → Except String TaskResult) (lat : Tool → Nat) (s : SchedState) (t : Tool)
    (hs : launchInv g s) : launchInv g (processOne g fn lat s t) := by
  unfold processOne
  cases fn t with
  | error e => exact hs
  | ok r =>
    unfold launchDependents
    refine foldDep_launchInv g lat _ _ ?_
    intro p hp d hd
    exact subset_insertTool s.completed r.tool (hs p hp d hd)

theorem foldProc_launchInv (g : DependencyGraph)
    (fn : Tool → Except String TaskResult) (lat : Tool → Nat) (l : List Tool)
    (s : SchedState) (hs : launchInv g s) :
    launchInv g (l.foldl (processOne g fn lat) s) := by
  induction l generalizing s with
  | nil => exact hs
  | cons t rest ih =>
    simp only [List.foldl_cons]
    exact ih _ (processOne_launchInv g fn lat s t hs)

theorem completePhase_launchInv (g : DependencyGraph)
    (fn : Tool → Except String TaskResult) (lat : Tool → Nat) (s : SchedState)
    (hs : launchInv g s) : launchInv g (completePhase g fn lat s) := by
  unfold completePhase
  refine foldProc_launchInv g fn lat _ _ ?_
  intro p2 hp2 d2 hd2
  exact hs p2 (List.mem_of_mem_filter hp2) d2 hd2

theorem launchPhase_launchInv (g : DependencyGraph) (lat : Tool → Nat) (s1 : SchedState)
    (hs : launchInv g s1) : launchInv g (launchPhase g lat s1) := by
  unfold launchPhase
  intro p hp d hd
  rcases List.mem_append.mp hp with hp1 | hp1
  · exact hs p hp1 d hd
  · simp only [List.mem_map] at hp1
    obtain ⟨t, ht, hqt⟩ := hp1
    have hft : p.1 = t := by rw [← hqt]
    rw [hft] at hd
    have hfree : g.dep_free t = true := (List.mem_filter.mp ht).2
    rw [dep_free_depsOf g t hfree] at hd
    cases hd

theorem tickPhase_launchInv (g : DependencyGraph) (s2 : SchedState)
    (hs : launchInv g s2) : launchInv g (tickPhase s2) := by
  unfold tickPhase
  intro p hp d hd
  simp only [List.mem_map] at hp
  obtain ⟨q, hq, hpq⟩ := hp
  have hfst : p.1 = q.1 := by rw [← hpq]
  rw [hfst] at hd
  exact hs q hq d hd

theorem step_launchInv (g : DependencyGraph) (fn : Tool → Except String TaskResult)
    (lat : Tool → Nat) (s : SchedState) (hs : launchInv g s) :
    launchInv g (step g fn lat s) :=
  tickPhase_launchInv g _
    (launchPhase_launchInv g lat _ (completePhase_launchInv g fn lat s hs))

theorem stepN_launchInv (g : DependencyGraph) (fn : Tool → Except String TaskResult)
    (lat : Tool → Nat) (n : Nat) (s : SchedState) (hs : launchInv g s) :
    launchInv g (stepN g fn lat n s) := by
  induction n generalizing s with
  | zero => exact hs
  | succ k ih => exact ih _ (step_launchInv g fn lat s hs)

/-- C3: in every state reachable by the scheduling loop from an initial
state, every launched (running) task has all of its declared dependencies in
the completed set at launch time — a dependent is never launched before its
dependencies have been recorded as completed. -/
theorem execute_parallel_dependency_ordering (g : DependencyGraph)
    (fn : Tool → Except String TaskResult) (lat : Tool → Nat) (tools : List Tool)
    (c0 : List Tool) (n : Nat) :
    launchInv g (stepN g fn lat n
      { pending := tools.dedup, running := [], completed := c0, results := [] }) := by
  refine stepN_launchInv g fn lat n _ ?_
  intro p hp
  cases hp

/-- Witness for C3: with `Rustup` declared to depend on `Homebrew`, after two
polling rounds `Rustup` is running and `Homebrew` is indeed already in the
completed set. -/
theorem execute_parallel_dependency_ordering_witness :
    Tool.Homebrew ∈ (stepN
      { dependencies := [(Tool.Rustup, [Tool.Homebrew])],
        reverse_dependencies := [(Tool.Homebrew, [Tool.Rustup])] }
      (fun t => Except.ok { tool := t, success := true, output := "ok" })
      (fun _ => 0) 2
      { pending := [Tool.Homebrew, Tool.Rustup].dedup, running := [], completed := [],
        results := [] }).completed :=
  execute_parallel_dependency_ordering
    { dependencies := [(Tool.Rustup, [Tool.Homebrew])],
      reverse_dependencies := [(Tool.Homebrew, [Tool.Rustup])] }
    (fun t => Except.ok { tool := t, success := true, output := "ok" })
    (fun _ => 0) [Tool.Homebrew, Tool.Rustup] [] 2
    (Tool.Rustup, 0) (by decide) Tool.Homebrew (by decide)

/-- Tools of the running vector. -/
def runningTools (s : SchedState) : List Tool := s.running.map Prod.fst

/-- Multiset of task ids currently accounted for by the loop state: already
reported in the results, running, or still pending. -/
def mstate (s : SchedState) : Multiset Tool :=
  (s.results.map TaskResult.tool : Multiset Tool) + (runningTools s : Multiset Tool) +
    (s.pending : Multiset Tool)

/-- Weight of the running vector: each running task counts its remaining
polling rounds plus one. -/
def sumRun (l : List (Tool × Nat)) : Nat := (l.map fun p => p.2 + 1).sum

/-- Termination measure of the polling loop: every pending task weighs `B`
(chosen above every launch weight) and every running task its remaining
rounds plus one. -/
def phi (B : Nat) (s : SchedState) : Nat := B * s.pending.length + sumRun s.running

theorem sumRun_append (l1 l2 : List (Tool × Nat)) :
    sumRun (l1 ++ l2) = sumRun l1 + sumRun l2 := by
  simp [sumRun]

theorem sumRun_dec_le (l : List (Tool × Nat)) :
    sumRun (l.map fun p => (p.1, p.2 - 1)) ≤ sumRun l := by
  unfold sumRun
  rw [List.map_map]
  refine List.sum_le_sum fun p _ => ?_
  simp only [Function.comp]
  omega

theorem sumRun_dec_eq (l : List (Tool × Nat)) (h : ∀ p ∈ l, 1 ≤ p.2) :
    sumRun (l.map fun p => (p.1, p.2 - 1)) + l.length = sumRun l := by
  induction l with
  | nil => rfl
  | cons q rest ih =>
    have hq := h q (List.mem_cons_self q rest)
    have hr := ih fun p hp => h p (List.mem_cons_of_mem q hp)
    simp only [List.map_cons, sumRun, List.sum_cons, List.length_cons] at hr ⊢
    omega

theorem sumRun_zeros (l : List (Tool × Nat)) (h : ∀ p ∈ l, p.2 = 0) :
    sumRun l = l.length := by
  induction l with
  | nil => rfl
  | cons q rest ih =>
    have hq := h q (List.mem_cons_self q rest)
    have hr := ih fun p hp => h p (List.mem_cons_of_mem q hp)
    simp only [sumRun, List.map_cons, List.sum_cons, List.length_cons] at hr ⊢
    omega

theorem sumRun_launch_le (lat : Tool → Nat) (C : Nat) (l : List Tool)
    (h : ∀ t ∈ l, lat t + 1 ≤ C) :
    sumRun (l.map fun t => (t, lat t)) ≤ l.length * C := by
  induction l with
  | nil => simp [sumRun]
  | cons t rest ih =>
    have ht := h t (List.mem_cons_self t rest)
    have hr := ih fun u hu => h u (List.mem_cons_of_mem t hu)
    simp only [List.map_cons, sumRun, List.sum_cons, List.length_cons] at hr ⊢
    refine Nat.le_trans (Nat.add_le_add ht hr) ?_
    have h2 : C + rest.length * C = (rest.length + 1) * C := by ring
    exact Nat.le_of_eq h2

theorem exists_min_rank (rank : Tool → Nat) (l : List Tool) (h : l ≠ []) :
    ∃ t ∈ l, ∀ u ∈ l, rank t ≤ rank u := by
  induction l with
  | nil => exact absurd rfl h
  | cons a rest ih =>
    cases rest with
    | nil =>
      refine ⟨a, List.mem_cons_self a [], fun u hu => ?_⟩
      rw [List.mem_singleton] at hu
      rw [hu]
    | cons b rest2 =>
      obtain ⟨t, ht, hmin⟩ := ih (List.cons_ne_nil b rest2)
      by_cases hat : rank a ≤ rank t
      · refine ⟨a, List.mem_cons_self a _, fun u hu => ?_⟩
        rcases List.mem_cons.mp hu with h1 | h1
        · rw [h1]
        · exact Nat.le_trans hat (hmin u h1)
      · refine ⟨t, List.mem_cons_of_mem a ht, fun u hu => ?_⟩
        rcases List.mem_cons.mp hu with h1 | h1
        · rw [h1]; omega
        · exact hmin u h1

theorem foldDep_pending_subset (g : DependencyGraph) (lat : Tool → Nat) (l : List Tool)
    (s : SchedState) :
    (l.foldl (dependentCheck g lat) s).pending ⊆ s.pending := by
  induction l generalizing s with
  | nil => exact fun x h => h
  | cons d rest ih =>
    intro x hx
    simp only [List.foldl_cons] at hx
    have hx2 := ih _ hx
    unfold dependentCheck at hx2
    by_cases h : d ∈ s.pending ∧ g.can_execute d s.completed = true
    · rw [if_pos h] at hx2
      exact List.erase_subset _ _ hx2
    · rw [if_neg h] at hx2
      exact hx2

theorem foldDep_nodup (g : DependencyGraph) (lat : Tool → Nat) (l : List Tool)
    (s : SchedState) (h : s.pending.Nodup) :
    (l.foldl (dependentCheck g lat) s).pending.Nodup := by
  induction l generalizing s with
  | nil => exact h
  | cons d rest ih =>
    simp only [List.foldl_cons]
    refine ih _ ?_
    unfold dependentCheck
    by_cases hc : d ∈ s.pending ∧ g.can_execute d s.completed = true
    · rw [if_pos hc]
      exact h.erase d
    · rw [if_neg hc]
      exact h

theorem foldDep_account (g : DependencyGraph) (lat : Tool → Nat) (l : List Tool)
    (s : SchedState) :
    ((runningTools (l.foldl (dependentCheck g lat) s) : Multiset Tool) +
      ((l.foldl (dependentCheck g lat) s).pending : Multiset Tool)) =
    ((runningTools s : Multiset Tool) + (s.pending : Multiset Tool)) := by
  induction l generalizing s with
  | nil => rfl
  | cons d rest ih =>
    simp only [List.foldl_cons]
    rw [ih]
    unfold dependentCheck
    by_cases h : d ∈ s.pending ∧ g.can_execute d s.completed = true
    · rw [if_pos h]
      show ((s.running ++ [(d, lat d)]).map Prod.fst : Multiset Tool) +
          ((s.pending.erase d : List Tool) : Multiset Tool) =
        ((s.running.map Prod.fst : List Tool) : Multiset Tool) + (s.pending : Multiset Tool)
      rw [List.map_append]
      have h1 : (List.map Prod.fst [(d, lat d)] : List Tool) = [d] := rfl
      rw [h1, ← Multiset.coe_add, add_assoc]
      congr 1
      rw [Multiset.coe_singleton, Multiset.singleton_add, Multiset.cons_coe,
        Multiset.coe_eq_coe]
      exact (List.perm_cons_erase h.1).symm
    · rw [if_neg h]

theorem foldDep_phi (g : DependencyGraph) (lat : Tool → Nat) (B : Nat) (l : List Tool)
    (s : SchedState) (hp : ∀ d ∈ s.pending, lat d + 2 ≤ B) :
    B * (l.foldl (dependentCheck g lat) s).pending.length +
      sumRun (l.foldl (dependentCheck g lat) s).running ≤
    B * s.pending.length + sumRun s.running := by
  induction l generalizing s with
  | nil => exact Nat.le_refl _
  | cons d rest ih =>
    simp only [List.foldl_cons]
    have hsub : (dependentCheck g lat s d).pending ⊆ s.pending := by
      unfold dependentCheck
      by_cases h : d ∈ s.pending ∧ g.can_execute d s.completed = true
      · rw [if_pos h]; exact fun x hx => List.erase_subset _ _ hx
      · rw [if_neg h]; exact fun x hx => hx
    refine Nat.le_trans (ih _ fun x hx => hp x (hsub hx)) ?_
    unfold dependentCheck
    by_cases h : d ∈ s.pending ∧ g.can_execute d s.completed = true
    · rw [if_pos h]
      show B * (s.pending.erase d).length + sumRun (s.running ++ [(d, lat d)]) ≤
        B * s.pending.length + sumRun s.running
      rw [List.length_erase_of_mem h.1, sumRun_append]
      have hlen : 1 ≤ s.pending.length := List.length_pos.mpr (List.ne_nil_of_mem h.1)
      obtain ⟨m, hm⟩ := Nat.exists_eq_add_of_le hlen
      have hBd := hp d h.1
      have hone : sumRun [(d, lat d)] = lat d + 1 := by simp [sumRun]
      rw [hone, hm]
      have hmul : B * (1 + m) = B * m + B := by ring
      have hmul2 : B * (1 + m - 1) = B * m := by
        have : 1 + m - 1 = m := by omega
        rw [this]
      rw [hmul, hmul2]
      have hgen : ∀ K R : Nat, K + (R + (lat d + 1)) ≤ K + B + R := by
        intro K R; omega
      exact hgen (B * m) (sumRun s.running)
    · rw [if_neg h]

theorem foldDep_unprocessed (g : DependencyGraph) (lat : Tool → Nat) (l : List Tool)
    (s : SchedState) (hnd : s.pending.Nodup) :
    ∀ d ∈ l, d ∈ (l.foldl (dependentCheck g lat) s).pending →
      g.can_execute d s.completed = false := by
  induction l generalizing s with
  | nil => intro d hd; cases hd
  | cons c rest ih =>
    intro d hd hdp
    simp only [List.foldl_cons] at hdp
    by_cases h : c ∈ s.pending ∧ g.can_execute c s.completed = true
    · have hst : dependentCheck g lat s c =
          { s with pending := s.pending.erase c, running := s.running ++ [(c, lat c)] } := by
        unfold dependentCheck; rw [if_pos h]
      rcases List.mem_cons.mp hd with hdc | hdr
      · have hmem : d ∈ (dependentCheck g lat s c).pending :=
          foldDep_pending_subset g lat rest _ hdp
        rw [hst] at hmem
        exact absurd hdc ((List.Nodup.mem_erase_iff hnd).mp hmem).1
      · have hnd2 : (dependentCheck g lat s c).pending.Nodup := by
          rw [hst]; exact hnd.erase c
        have hres := ih (dependentCheck g lat s c) hnd2 d hdr hdp
        rw [hst] at hres
        exact hres
    · have hst : dependentCheck g lat s c = s := by
        unfold dependentCheck; rw [if_neg h]
      rw [hst] at hdp
      rcases List.mem_cons.mp hd with hdc | hdr
      · subst hdc
        have hdin : d ∈ s.pending := foldDep_pending_subset g lat rest s hdp
        cases hce : g.can_execute d s.completed with
        | false => rfl
        | true => exact absurd ⟨hdin, hce⟩ h
      · exact ih s hnd d hdr hdp

/-- Invariant threaded through completion processing: pending has no
duplicates, every pending task whose dependencies are all completed is
dependency-free (it would have been launched already), every reported tool is
in the completed set, and every reported outcome is the task function's. -/
structure MidInv (g : DependencyGraph) (fn : Tool → Except String TaskResult)
    (s : SchedState) : Prop where
  nodupPending : s.pending.Nodup
  blocked : ∀ t ∈ s.pending, g.can_execute t s.completed = true → g.dep_free t = true
  resCompleted : ∀ t ∈ s.results.map TaskResult.tool, t ∈ s.completed
  resFn : ∀ r ∈ s.results, fn r.tool = Except.ok r

theorem can_execute_of_insert (g : DependencyGraph) (t d : Tool) (c : List Tool)
    (h : g.can_execute d (insertTool c t) = true) (hnd : t ∉ g.depsOf d) :
    g.can_execute d c = true := by
  rw [can_execute_iff] at h ⊢
  intro x hx
  have hx2 := h x hx
  rw [mem_insertTool] at hx2
  rcases hx2 with h1 | h1
  · exact absurd (h1 ▸ hx) hnd
  · exact h1

theorem processOne_eq (g : DependencyGraph) (fn : Tool → Except String TaskResult)
    (lat : Tool → Nat) (s : SchedState) (t : Tool) (r : TaskResult)
    (hfn : fn t = Except.ok r) :
    processOne g fn lat s t =
      (g.get_dependent_tools r.tool).foldl (dependentCheck g lat)
        { s with results := s.results ++ [r], completed := insertTool s.completed r.tool } := by
  unfold processOne launchDependents
  rw [hfn]

theorem processOne_midInv (g : DependencyGraph) (fn : Tool → Except String TaskResult)
    (lat : Tool → Nat) (s : SchedState) (t : Tool) (r : TaskResult)
    (hcoh : ∀ u d, d ∈ g.depsOf u → u ∈ g.get_dependent_tools d)
    (hfn : fn t = Except.ok r) (hrt : r.tool = t) (hs : MidInv g fn s) :
    MidInv g fn (processOne g fn lat s t) := by
  rw [processOne_eq g fn lat s t r hfn]
  have hcompl : ∀ l1 : List Tool,
      (l1.foldl (dependentCheck g lat)
        { s with results := s.results ++ [r],
                 completed := insertTool s.completed r.tool }).completed =
      insertTool s.completed r.tool := fun l1 => foldDep_completed g lat l1 _
  have hres : ∀ l1 : List Tool,
      (l1.foldl (dependentCheck g lat)
        { s with results := s.results ++ [r],
                 completed := insertTool s.completed r.tool }).results =
      s.results ++ [r] := fun l1 => foldDep_results g lat l1 _
  constructor
  · exact foldDep_nodup g lat _ _ hs.nodupPending
  · intro d hd hce
    rw [hcompl] at hce
    have hdp : d ∈ s.pending :=
      foldDep_pending_subset g lat (g.get_dependent_tools r.tool)
        { s with results := s.results ++ [r],
                 completed := insertTool s.completed r.tool } hd
    by_cases hdep : t ∈ g.depsOf d
    · have hdd : d ∈ g.get_dependent_tools r.tool := by
        rw [hrt]; exact hcoh d t hdep
      have hfalse := foldDep_unprocessed g lat (g.get_dependent_tools r.tool)
        { s with results := s.results ++ [r],
                 completed := insertTool s.completed r.tool }
        hs.nodupPending d hdd hd
      have hfalse2 : g.can_execute d (insertTool s.completed r.tool) = false := hfalse
      rw [hfalse2] at hce
      cases hce
    · refine hs.blocked d hdp ?_
      refine can_execute_of_insert g r.tool d s.completed hce ?_
      rw [hrt]; exact hdep
  · intro x hx
    rw [hres] at hx
    rw [hcompl, mem_insertTool]
    rw [List.map_append, List.mem_append] at hx
    rcases hx with hx | hx
    · exact Or.inr (hs.resCompleted x hx)
    · rw [List.map_singleton, List.mem_singleton] at hx
      exact Or.inl hx
  · intro x hx
    rw [hres, List.mem_append] at hx
    rcases hx with hx | hx
    · exact hs.resFn x hx
    · rw [List.mem_singleton] at hx
      subst hx
      rw [hrt]
      exact hfn

theorem multiset_add_swap (M R P T : Multiset Tool) :
    M + T + (R + P) = M + R + P + T := by
  rw [add_assoc M T, add_assoc (M + R) P, add_assoc M R]
  rw [add_comm T (R + P)]
  rw [add_assoc R P T]

theorem processOne_account (g : DependencyGraph) (fn : Tool → Except String TaskResult)
    (lat : Tool → Nat) (s : SchedState) (t : Tool) (r : TaskResult)
    (hfn : fn t = Except.ok r) (hrt : r.tool = t) :
    mstate (processOne g fn lat s t) = mstate s + {t} := by
  rw [processOne_eq g fn lat s t r hfn]
  unfold mstate
  rw [foldDep_results]
  have hacc := foldDep_account g lat (g.get_dependent_tools r.tool)
    { s with results := s.results ++ [r], completed := insertTool s.completed r.tool }
  rw [add_assoc, hacc]
  show ((s.results ++ [r]).map TaskResult.tool : Multiset Tool) +
      ((runningTools s : Multiset Tool) + (s.pending : Multiset Tool)) = _
  rw [List.map_append, List.map_singleton, hrt, ← Multiset.coe_add, Multiset.coe_singleton]
  exact multiset_add_swap _ _ _ _

theorem processOne_phi (g : DependencyGraph) (fn : Tool → Except String TaskResult)
    (lat : Tool → Nat) (B : Nat) (s : SchedState) (t : Tool) (r : TaskResult)
    (hfn : fn t = Except.ok r) (hp : ∀ d ∈ s.pending, lat d + 2 ≤ B) :
    B * (processOne g fn lat s t).pending.length + sumRun (processOne g fn lat s t).running ≤
      B * s.pending.length + sumRun s.running := by
  rw [processOne_eq g fn lat s t r hfn]
  exact foldDep_phi g lat B _ _ hp

theorem processOne_pending_subset (g : DependencyGraph) (fn : Tool → Except String TaskResult)
    (lat : Tool → Nat) (s : SchedState) (t : Tool) :
    (processOne g fn lat s t).pending ⊆ s.pending := by
  unfold processOne
  cases fn t with
  | error e => exact fun x hx => hx
  | ok r => exact foldDep_pending_subset g lat _ _

theorem foldProc_facts (g : DependencyGraph) (fn : Tool → Except String TaskResult)
    (lat : Tool → Nat) (B : Nat)
    (hcoh : ∀ u d, d ∈ g.depsOf u → u ∈ g.get_dependent_tools d)
    (l : List Tool) (s : SchedState)
    (hl : ∀ t ∈ l, ∃ r, fn t = Except.ok r ∧ r.tool = t)
    (hs : MidInv g fn s)
    (hp : ∀ d ∈ s.pending, lat d + 2 ≤ B) :
    MidInv g fn (l.foldl (processOne g fn lat) s) ∧
    mstate (l.foldl (processOne g fn lat) s) = mstate s + (l : Multiset Tool) ∧
    (B * (l.foldl (processOne g fn lat) s).pending.length +
      sumRun (l.foldl (processOne g fn lat) s).running ≤
      B * s.pending.length + sumRun s.running) ∧
    (l.foldl (processOne g fn lat) s).pending ⊆ s.pending ∧
    s.completed ⊆ (l.foldl (processOne g fn lat) s).completed := by
  induction l generalizing s with
  | nil =>
    refine ⟨hs, ?_, Nat.le_refl _, fun x hx => hx, fun x hx => hx⟩
    show mstate s = mstate s + ((([] : List Tool)) : Multiset Tool)
    rw [Multiset.coe_nil, add_zero]
  | cons t rest ih =>
    obtain ⟨r, hfn, hrt⟩ := hl t (List.mem_cons_self t rest)
    simp only [List.foldl_cons]
    have hmid := processOne_midInv g fn lat s t r hcoh hfn hrt hs
    have hsub := processOne_pending_subset g fn lat s t
    have hcm := processOne_completed_mono g fn lat s t
    obtain ⟨i1, i2, i3, i4, i5⟩ := ih (processOne g fn lat s t)
      (fun u hu => hl u (List.mem_cons_of_mem t hu)) hmid
      (fun d hd => hp d (hsub hd))
    refine ⟨i1, ?_, ?_, fun x hx => hsub (i4 hx), fun x hx => i5 (hcm hx)⟩
    · rw [i2, processOne_account g fn lat s t r hfn hrt]
      have hc : ((t :: rest : List Tool) : Multiset Tool) = {t} + (rest : Multiset Tool) := by
        rw [← Multiset.cons_coe, ← Multiset.singleton_add]
      rw [hc, ← add_assoc]
    · exact Nat.le_trans i3 (processOne_phi g fn lat B s t r hfn hp)

/-- Loop invariant for the completeness theorem: the mid invariant together
with the accounting fact that results, running and pending exactly partition
the supplied tool set. -/
structure LoopInv (g : DependencyGraph) (fn : Tool → Except String TaskResult)
    (tools : List Tool) (s : SchedState) : Prop where
  mid : MidInv g fn s
  account : mstate s = (tools : Multiset Tool)

/-- Standing assumptions of the completeness theorem: the supplied set has no
duplicates, the task function resolves to an `Ok` outcome carrying its own id
for every supplied tool, every declared dependency of a supplied tool is
itself supplied, the dependency relation admits a ranking (acyclicity), the
reverse index contains every declared edge, and `B` dominates every supplied
latency plus two. -/
structure SchedAssumptions (g : DependencyGraph) (fn : Tool → Except String TaskResult)
    (lat : Tool → Nat) (tools : List Tool) (rank : Tool → Nat) (B : Nat) : Prop where
  nodupTools : tools.Nodup
  okFn : ∀ t ∈ tools, ∃ r, fn t = Except.ok r ∧ r.tool = t
  suppliedDeps : ∀ t ∈ tools, ∀ d ∈ g.depsOf t, d ∈ tools
  ranked : ∀ t d, d ∈ g.depsOf t → rank d < rank t
  coherent : ∀ u d, d ∈ g.depsOf u → u ∈ g.get_dependent_tools d
  latBound : ∀ t ∈ tools, lat t + 2 ≤ B

theorem account_mem_pending (tools : List Tool) (s : SchedState)
    (h : mstate s = (tools : Multiset Tool)) (x : Tool) (hx : x ∈ s.pending) :
    x ∈ tools := by
  have hm : x ∈ mstate s := by
    unfold mstate
    rw [Multiset.mem_add]
    exact Or.inr (Multiset.mem_coe.mpr hx)
  rw [h] at hm
  exact Multiset.mem_coe.mp hm

theorem account_mem_running (tools : List Tool) (s : SchedState)
    (h : mstate s = (tools : Multiset Tool)) (x : Tool) (hx : x ∈ runningTools s) :
    x ∈ tools := by
  have hm : x ∈ mstate s := by
    unfold mstate
    rw [Multiset.mem_add]
    refine Or.inl ?_
    rw [Multiset.mem_add]
    exact Or.inr (Multiset.mem_coe.mpr hx)
  rw [h] at hm
  exact Multiset.mem_coe.mp hm

theorem account_cases (tools : List Tool) (s : SchedState)
    (h : mstate s = (tools : Multiset Tool)) (x : Tool) (hx : x ∈ tools) :
    x ∈ s.results.map TaskResult.tool ∨ x ∈ runningTools s ∨ x ∈ s.pending := by
  have hm : x ∈ mstate s := by rw [h]; exact Multiset.mem_coe.mpr hx
  unfold mstate at hm
  rw [Multiset.mem_add] at hm
  rcases hm with hm | hm
  · rw [Multiset.mem_add] at hm
    rcases hm with hm | hm
    · exact Or.inl (Multiset.mem_coe.mp hm)
    · exact Or.inr (Or.inl (Multiset.mem_coe.mp hm))
  · exact Or.inr (Or.inr (Multiset.mem_coe.mp hm))

theorem multiset_reassemble (R Km P Fm : Multiset Tool) :
    R + Km + P + Fm = R + (Fm + Km) + P := by
  rw [add_assoc (R + Km) P Fm, add_comm P Fm, ← add_assoc (R + Km) Fm P,
    add_assoc R Km Fm, add_comm Km Fm]

theorem completePhase_facts (g : DependencyGraph) (fn : Tool → Except String TaskResult)
    (lat : Tool → Nat) (tools : List Tool) (rank : Tool → Nat) (B : Nat)
    (A : SchedAssumptions g fn lat tools rank B) (s : SchedState)
    (hinv : LoopInv g fn tools s) :
    MidInv g fn (completePhase g fn lat s) ∧
    mstate (completePhase g fn lat s) = (tools : Multiset Tool) ∧
    (B * (completePhase g fn lat s).pending.length +
        sumRun (completePhase g fn lat s).running ≤
      B * s.pending.length + sumRun (s.running.filter fun p => !decide (p.2 = 0))) ∧
    (completePhase g fn lat s).pending ⊆ s.pending := by
  have hmid0 : MidInv g fn { s with running := s.running.filter fun p => !decide (p.2 = 0) } :=
    ⟨hinv.mid.nodupPending, hinv.mid.blocked, hinv.mid.resCompleted, hinv.mid.resFn⟩
  have hl : ∀ t ∈ ((s.running.filter fun p => decide (p.2 = 0)).map Prod.fst).reverse,
      ∃ r, fn t = Except.ok r ∧ r.tool = t := by
    intro t ht
    rw [List.mem_reverse, List.mem_map] at ht
    obtain ⟨p, hp, hpt⟩ := ht
    have hmem : t ∈ runningTools s :=
      hpt ▸ List.mem_map_of_mem Prod.fst (List.mem_of_mem_filter hp)
    exact A.okFn t (account_mem_running tools s hinv.account t hmem)
  have hp0 : ∀ d ∈ ({ s with running := s.running.filter fun p => !decide (p.2 = 0) } :
      SchedState).pending, lat d + 2 ≤ B :=
    fun d hd => A.latBound d (account_mem_pending tools s hinv.account d hd)
  have hFF :=
    foldProc_facts g fn lat B A.coherent
      (((s.running.filter fun p => decide (p.2 = 0)).map Prod.fst).reverse)
      { s with running := s.running.filter fun p => !decide (p.2 = 0) }
      hl hmid0 hp0
  have hsplit : ((s.running.map Prod.fst : List Tool) : Multiset Tool) =
      (((s.running.filter fun p => decide (p.2 = 0)).map Prod.fst : List Tool) :
        Multiset Tool) +
      (((s.running.filter fun p => !decide (p.2 = 0)).map Prod.fst : List Tool) :
        Multiset Tool) := by
    rw [Multiset.coe_add, Multiset.coe_eq_coe]
    have hx := (List.filter_append_perm (fun p : Tool × Nat => decide (p.2 = 0))
      s.running).map Prod.fst
    rw [List.map_append] at hx
    exact hx.symm
  have hfinal : mstate ({ s with running := s.running.filter fun p => !decide (p.2 = 0) } :
      SchedState) +
      ((((s.running.filter fun p => decide (p.2 = 0)).map Prod.fst).reverse : List Tool) :
        Multiset Tool) = (tools : Multiset Tool) := by
    rw [← hinv.account]
    simp only [mstate, runningTools]
    rw [Multiset.coe_reverse, hsplit]
    exact multiset_reassemble _ _ _ _
  exact ⟨hFF.1, hFF.2.1.trans hfinal, hFF.2.2.1, hFF.2.2.2.1⟩

theorem launchTick_mid (g : DependencyGraph) (fn : Tool → Except String TaskResult)
    (lat : Tool → Nat) (s1 : SchedState) (m1 : MidInv g fn s1) :
    MidInv g fn (tickPhase (launchPhase g lat s1)) := by
  refine ⟨?_, ?_, ?_, ?_⟩
  · exact m1.nodupPending.filter _
  · intro t ht hce
    exact m1.blocked t (List.mem_of_mem_filter ht) hce
  · exact m1.resCompleted
  · exact m1.resFn

theorem map_fst_dec (l : List (Tool × Nat)) :
    (l.map fun p => (p.1, p.2 - 1)).map Prod.fst = l.map Prod.fst := by
  induction l with
  | nil => rfl
  | cons q rest ih => simp [ih]

theorem map_fst_launch (lat : Tool → Nat) (l : List Tool) :
    (l.map fun t => (t, lat t)).map Prod.fst = l := by
  induction l with
  | nil => rfl
  | cons t rest ih => simp [ih]

theorem ready_split_coe (g : DependencyGraph) (P : List Tool) :
    ((g.get_ready_tools P : List Tool) : Multiset Tool) +
      ((P.filter fun t => !g.dep_free t : List Tool) : Multiset Tool) =
      (P : Multiset Tool) := by
  rw [Multiset.coe_add, Multiset.coe_eq_coe]
  exact List.filter_append_perm (fun t => g.dep_free t) P

theorem multiset_launch_assoc (R Am Rd Rt P : Multiset Tool) (h : Rd + Rt = P) :
    R + (Am + Rd) + Rt = R + Am + P := by
  rw [← h, ← add_assoc R Am Rd, add_assoc (R + Am) Rd Rt]

theorem launchTick_account (g : DependencyGraph) (lat : Tool → Nat) (s1 : SchedState) :
    mstate (tickPhase (launchPhase g lat s1)) = mstate s1 := by
  simp only [mstate, runningTools, tickPhase, launchPhase]
  rw [map_fst_dec, List.map_append, map_fst_launch, ← Multiset.coe_add]
  exact multiset_launch_assoc _ _ _ _ _ (ready_split_coe g s1.pending)

theorem launch_arith (B rl pl k S SD rn : Nat) (hcase : k = 0 ∨ 2 ≤ B)
    (hSD : SD + rn ≤ S + k * (B - 1)) (hlen : k + rl = pl) :
    B * rl + SD + k + rn ≤ B * pl + S := by
  rcases hcase with hk | hB2
  · subst hk
    have hpl : pl = rl := by omega
    rw [hpl]
    calc B * rl + SD + 0 + rn = B * rl + (SD + rn) := by ring
      _ ≤ B * rl + (S + 0 * (B - 1)) := Nat.add_le_add_left hSD _
      _ = B * rl + S := by ring
  · obtain ⟨q, hq⟩ : ∃ q, B = q + 1 := ⟨B - 1, by omega⟩
    subst hq
    have h1 : q + 1 - 1 = q := by omega
    rw [h1] at hSD
    calc (q + 1) * rl + SD + k + rn = (q + 1) * rl + k + (SD + rn) := by ring
      _ ≤ (q + 1) * rl + k + (S + k * q) := Nat.add_le_add_left hSD _
      _ = (q + 1) * (k + rl) + S := by ring
      _ = (q + 1) * pl + S := by rw [hlen]

theorem ready_len_split (g : DependencyGraph) (P : List Tool) :
    (g.get_ready_tools P).length + (P.filter fun t => !g.dep_free t).length = P.length := by
  have h := (List.filter_append_perm (fun t => g.dep_free t) P).length_eq
  rw [List.length_append] at h
  exact h

theorem ready_case_bound (g : DependencyGraph) (lat : Tool → Nat) (B : Nat)
    (s1 : SchedState) (hp : ∀ d ∈ s1.pending, lat d + 2 ≤ B) :
    (g.get_ready_tools s1.pending).length = 0 ∨ 2 ≤ B := by
  by_cases hre : g.get_ready_tools s1.pending = []
  · left; rw [hre]; rfl
  · right
    obtain ⟨t0, ht0⟩ := List.exists_mem_of_ne_nil _ hre
    have := hp t0 (List.mem_of_mem_filter ht0)
    omega

theorem ready_launch_bound (g : DependencyGraph) (lat : Tool → Nat) (B : Nat)
    (s1 : SchedState) (hp : ∀ d ∈ s1.pending, lat d + 2 ≤ B) :
    sumRun ((g.get_ready_tools s1.pending).map fun t => (t, lat t)) ≤
      (g.get_ready_tools s1.pending).length * (B - 1) := by
  refine sumRun_launch_le lat (B - 1) _ ?_
  intro u hu
  have := hp u (List.mem_of_mem_filter hu)
  omega

theorem launchTick_phi (g : DependencyGraph) (lat : Tool → Nat) (B : Nat) (s1 : SchedState)
    (hp : ∀ d ∈ s1.pending, lat d + 2 ≤ B) :
    phi B (tickPhase (launchPhase g lat s1)) + (g.get_ready_tools s1.pending).length ≤
      B * s1.pending.length + sumRun s1.running := by
  have hSD : sumRun (((s1.running ++ (g.get_ready_tools s1.pending).map fun t => (t, lat t)).map
        fun p => (p.1, p.2 - 1))) + 0 ≤
      sumRun s1.running + (g.get_ready_tools s1.pending).length * (B - 1) := by
    rw [Nat.add_zero]
    refine Nat.le_trans (sumRun_dec_le _) ?_
    rw [sumRun_append]
    exact Nat.add_le_add_left (ready_launch_bound g lat B s1 hp) _
  exact launch_arith B (s1.pending.filter fun t => !g.dep_free t).length s1.pending.length
    (g.get_ready_tools s1.pending).length (sumRun s1.running) _ 0
    (ready_case_bound g lat B s1 hp) hSD (ready_len_split g s1.pending)

theorem launchTick_phi_strict (g : DependencyGraph) (lat : Tool → Nat) (B : Nat)
    (s1 : SchedState) (hp : ∀ d ∈ s1.pending, lat d + 2 ≤ B)
    (hpos : ∀ p ∈ s1.running, 1 ≤ p.2) :
    phi B (tickPhase (launchPhase g lat s1)) + (g.get_ready_tools s1.pending).length +
      s1.running.length ≤ B * s1.pending.length + sumRun s1.running := by
  have hA1 : sumRun (s1.running.map fun p => (p.1, p.2 - 1)) + s1.running.length =
      sumRun s1.running := sumRun_dec_eq s1.running hpos
  have hA2 : sumRun (((g.get_ready_tools s1.pending).map fun t => (t, lat t)).map
        fun p => (p.1, p.2 - 1)) ≤
      (g.get_ready_tools s1.pending).length * (B - 1) :=
    Nat.le_trans (sumRun_dec_le _) (ready_launch_bound g lat B s1 hp)
  have hSD : sumRun (((s1.running ++ (g.get_ready_tools s1.pending).map fun t => (t, lat t)).map
        fun p => (p.1, p.2 - 1))) + s1.running.length ≤
      sumRun s1.running + (g.get_ready_tools s1.pending).length * (B - 1) := by
    rw [List.map_append, sumRun_append]
    calc sumRun (s1.running.map fun p => (p.1, p.2 - 1)) +
          sumRun (((g.get_ready_tools s1.pending).map fun t => (t, lat t)).map
            fun p => (p.1, p.2 - 1)) + s1.running.length
        = sumRun (s1.running.map fun p => (p.1, p.2 - 1)) + s1.running.length +
          sumRun (((g.get_ready_tools s1.pending).map fun t => (t, lat t)).map
            fun p => (p.1, p.2 - 1)) := by ring
      _ = sumRun s1.running +
          sumRun (((g.get_ready_tools s1.pending).map fun t => (t, lat t)).map
            fun p => (p.1, p.2 - 1)) := by rw [hA1]
      _ ≤ sumRun s1.running + (g.get_ready_tools s1.pending).length * (B - 1) :=
          Nat.add_le_add_left hA2 _
  exact launch_arith B (s1.pending.filter fun t => !g.dep_free t).length s1.pending.length
    (g.get_ready_tools s1.pending).length (sumRun s1.running) _ s1.running.length
    (ready_case_bound g lat B s1 hp) hSD (ready_len_split g s1.pending)

theorem sumRun_keep_split (s : SchedState) :
    sumRun (s.running.filter fun p => !decide (p.2 = 0)) +
      (s.running.filter fun p => decide (p.2 = 0)).length = sumRun s.running := by
  have hperm := List.filter_append_perm (fun p : Tool × Nat => decide (p.2 = 0)) s.running
  have hsum : sumRun ((s.running.filter fun p => decide (p.2 = 0)) ++
      (s.running.filter fun p => !decide (p.2 = 0))) = sumRun s.running := by
    unfold sumRun
    exact (hperm.map _).sum_eq
  rw [sumRun_append] at hsum
  have hzero : sumRun (s.running.filter fun p => decide (p.2 = 0)) =
      (s.running.filter fun p => decide (p.2 = 0)).length := by
    refine sumRun_zeros _ ?_
    intro p hp
    exact of_decide_eq_true (List.mem_filter.mp hp).2
  omega

theorem step_preserves (g : DependencyGraph) (fn : Tool → Except String TaskResult)
    (lat : Tool → Nat) (tools : List Tool) (rank : Tool → Nat) (B : Nat)
    (A : SchedAssumptions g fn lat tools rank B) (s : SchedState)
    (hinv : LoopInv g fn tools s) :
    LoopInv g fn tools (step g fn lat s) ∧
    (¬(s.pending = [] ∧ s.running = []) → phi B (step g fn lat s) < phi B s) := by
  have hCF := completePhase_facts g fn lat tools rank B A s hinv
  refine ⟨⟨launchTick_mid g fn lat _ hCF.1, (launchTick_account g lat _).trans hCF.2.1⟩, ?_⟩
  intro hne
  have hp1 : ∀ d ∈ (completePhase g fn lat s).pending, lat d + 2 ≤ B :=
    fun d hd => A.latBound d (account_mem_pending tools _ hCF.2.1 d hd)
  have hstepeq : step g fn lat s =
      tickPhase (launchPhase g lat (completePhase g fn lat s)) := rfl
  have hphis : phi B s = B * s.pending.length + sumRun s.running := rfl
  rw [hstepeq]
  by_cases hFz : (s.running.filter fun p => decide (p.2 = 0)) = []
  · by_cases hRz : s.running = []
    · -- the running vector is empty, so some pending tool must be ready
      have hpend : s.pending ≠ [] := fun hp0 => hne ⟨hp0, hRz⟩
      have hs1eq : completePhase g fn lat s =
          { s with running := ([] : List (Tool × Nat)) } := by
        unfold completePhase
        rw [hRz]
        rfl
      have hpend1 : (completePhase g fn lat s).pending = s.pending := by rw [hs1eq]
      obtain ⟨t, htp, hmin⟩ := exists_min_rank rank s.pending hpend
      have httools : t ∈ tools := account_mem_pending tools s hinv.account t htp
      have hdeps : ∀ d ∈ g.depsOf t, d ∈ s.completed := by
        intro d hd
        have hdt : d ∈ tools := A.suppliedDeps t httools d hd
        rcases account_cases tools s hinv.account d hdt with hc | hc | hc
        · exact hinv.mid.resCompleted d hc
        · have hrt0 : runningTools s = [] := by
            unfold runningTools
            rw [hRz]
            rfl
          rw [hrt0] at hc
          cases hc
        · have h1 := A.ranked t d hd
          have h2 := hmin d hc
          omega
      have hce : g.can_execute t s.completed = true :=
        can_execute_of_deps_subset g t s.completed hdeps
      have hfree : g.dep_free t = true := hinv.mid.blocked t htp hce
      have htr : t ∈ g.get_ready_tools (completePhase g fn lat s).pending := by
        rw [hpend1]
        exact List.mem_filter.mpr ⟨htp, hfree⟩
      have hk1 : 1 ≤ (g.get_ready_tools (completePhase g fn lat s).pending).length :=
        List.length_pos.mpr (List.ne_nil_of_mem htr)
      have hLT := launchTick_phi g lat B (completePhase g fn lat s) hp1
      have hchain := Nat.le_trans hLT hCF.2.2.1
      have hK0 : (s.running.filter fun p => !decide (p.2 = 0)) = [] := by
        rw [hRz]; rfl
      have h3 : B * s.pending.length +
          sumRun (s.running.filter fun p => !decide (p.2 = 0)) = phi B s := by
        rw [hphis, hK0, hRz]
      rw [h3] at hchain
      omega
    · -- nothing finished but something is running: every remaining count is
      -- positive, so the tick strictly shrinks the measure
      have hpos : ∀ p ∈ s.running, 1 ≤ p.2 := by
        intro p hp
        by_contra hlt
        have hp2 : p.2 = 0 := by omega
        have hmem : p ∈ s.running.filter fun p => decide (p.2 = 0) :=
          List.mem_filter.mpr ⟨hp, by rw [hp2]; rfl⟩
        rw [hFz] at hmem
        cases hmem
      have hKeq : (s.running.filter fun p => !decide (p.2 = 0)) = s.running := by
        refine List.filter_eq_self.mpr ?_
        intro p hp
        have h1 := hpos p hp
        have h2 : decide (p.2 = 0) = false := by
          refine decide_eq_false ?_
          omega
        rw [h2]
        rfl
      have hs1eq : completePhase g fn lat s = s := by
        unfold completePhase
        rw [hFz, hKeq]
        rfl
      have hLT := launchTick_phi_strict g lat B (completePhase g fn lat s)
        hp1 (by rw [hs1eq]; exact hpos)
      rw [hs1eq] at hLT
      have hrl : 1 ≤ s.running.length := List.length_pos.mpr hRz
      rw [hs1eq]
      omega
  · -- at least one task finished this round
    have hLT := launchTick_phi g lat B (completePhase g fn lat s) hp1
    have hchain := Nat.le_trans hLT hCF.2.2.1
    have hFlen : 1 ≤ (s.running.filter fun p => decide (p.2 = 0)).length :=
      List.length_pos.mpr hFz
    have h2 := Nat.add_le_add_right hchain
      (s.running.filter fun p => decide (p.2 = 0)).length
    have h3 : B * s.pending.length +
        sumRun (s.running.filter fun p => !decide (p.2 = 0)) +
        (s.running.filter fun p => decide (p.2 = 0)).length = phi B s := by
      rw [hphis, add_assoc, sumRun_keep_split]
    rw [h3] at h2
    omega

theorem runLoop_completes (g : DependencyGraph) (fn : Tool → Except String TaskResult)
    (lat : Tool → Nat) (tools : List Tool) (rank : Tool → Nat) (B : Nat)
    (A : SchedAssumptions g fn lat tools rank B) :
    ∀ (k : Nat) (s : SchedState), LoopInv g fn tools s → phi B s ≤ k →
      ∃ res, runLoop g fn lat k s = some res ∧
        (res.map TaskResult.tool : Multiset Tool) = (tools : Multiset Tool) ∧
        ∀ r ∈ res, fn r.tool = Except.ok r := by
  intro k
  induction k with
  | zero =>
    intro s hinv hphi
    by_cases hend : s.pending = [] ∧ s.running = []
    · refine ⟨s.results, ?_, ?_, hinv.mid.resFn⟩
      · simp [runLoop, hend.1, hend.2]
      · have hacc := hinv.account
        unfold mstate runningTools at hacc
        rw [hend.1, hend.2] at hacc
        simpa using hacc
    · exfalso
      have hph1 : 1 ≤ phi B s := by
        rcases not_and_or.mp hend with hpne | hrne
        · obtain ⟨t, ht⟩ := List.exists_mem_of_ne_nil _ hpne
          have hB2 : 2 ≤ B := by
            have := A.latBound t (account_mem_pending tools s hinv.account t ht)
            omega
          have hlen : 1 ≤ s.pending.length := List.length_pos.mpr hpne
          have hmul : 2 * 1 ≤ B * s.pending.length := Nat.mul_le_mul hB2 hlen
          exact Nat.le_trans (by omega) (Nat.le_trans hmul (Nat.le_add_right _ _))
        · obtain ⟨p, hp⟩ := List.exists_mem_of_ne_nil _ hrne
          have hx : p.2 + 1 ∈ s.running.map fun q => q.2 + 1 :=
            List.mem_map_of_mem _ hp
          have hle := List.single_le_sum (fun x _ => Nat.zero_le x) _ hx
          have h1 : 1 ≤ sumRun s.running := by
            unfold sumRun
            omega
          exact Nat.le_trans h1 (Nat.le_add_left _ _)
      omega
  | succ n ih =>
    intro s hinv hphi
    by_cases hend : s.pending = [] ∧ s.running = []
    · refine ⟨s.results, ?_, ?_, hinv.mid.resFn⟩
      · simp [runLoop, hend.1, hend.2]
      · have hacc := hinv.account
        unfold mstate runningTools at hacc
        rw [hend.1, hend.2] at hacc
        simpa using hacc
    · obtain ⟨hinv2, hdec⟩ := step_preserves g fn lat tools rank B A s hinv
      have hstep := hdec hend
      obtain ⟨res, h1, h2, h3⟩ := ih (step g fn lat s) hinv2 (by omega)
      refine ⟨res, ?_, h2, h3⟩
      have hcond : ¬(s.pending.isEmpty = true ∧ s.running.isEmpty = true) := by
        intro hc
        exact hend ⟨List.isEmpty_iff.mp hc.1, List.isEmpty_iff.mp hc.2⟩
      unfold runLoop
      rw [if_neg hcond]
      exact h1

/-- Auxiliary completeness theorem: under the standing assumptions some fuel
makes `execute_parallel` return, and the outcomes are exactly the task
function's `Ok` results, one per supplied tool. -/
theorem execute_parallel_complete_aux (g : DependencyGraph)
    (fn : Tool → Except String TaskResult) (lat : Tool → Nat) (tools : List Tool)
    (rank : Tool → Nat)
    (hnodup : tools.Nodup)
    (hok : ∀ t ∈ tools, ∃ r, fn t = Except.ok r ∧ r.tool = t)
    (hsup : ∀ t ∈ tools, ∀ d ∈ g.depsOf t, d ∈ tools)
    (hrank : ∀ t d, d ∈ g.depsOf t → rank d < rank t)
    (hcoh : ∀ u d, d ∈ g.depsOf u → u ∈ g.get_dependent_tools d) :
    ∃ fuel res,
      (ParallelScheduler.mk [] g).execute_parallel fuel tools fn lat = some res ∧
      (res.map TaskResult.tool).Perm tools ∧
      ∀ r ∈ res, fn r.tool = Except.ok r := by
  have hA : SchedAssumptions g fn lat tools rank ((tools.map fun t => lat t + 2).sum) := by
    refine ⟨hnodup, hok, hsup, hrank, hcoh, ?_⟩
    intro t ht
    exact List.single_le_sum (fun x _ => Nat.zero_le x) _
      (List.mem_map_of_mem _ ht)
  have hinit : LoopInv g fn tools
      { pending := tools.dedup, running := [], completed := [], results := [] } := by
    refine ⟨⟨List.nodup_dedup tools, ?_, ?_, ?_⟩, ?_⟩
    · intro t _ hce
      exact dep_free_of_can_execute_nil g t hce
    · intro t ht
      exact absurd ht (List.not_mem_nil t)
    · intro r hr
      exact absurd hr (List.not_mem_nil r)
    · unfold mstate runningTools
      simp only [List.map_nil, Multiset.coe_nil, zero_add, add_zero]
      rw [Multiset.coe_eq_coe]
      rw [hnodup.dedup]
  obtain ⟨res, h1, h2, h3⟩ := runLoop_completes g fn lat tools rank _ hA
    (phi ((tools.map fun t => lat t + 2).sum)
      { pending := tools.dedup, running := [], completed := [], results := [] })
    { pending := tools.dedup, running := [], completed := [], results := [] }
    hinit (Nat.le_refl _)
  exact ⟨_, res, h1, Multiset.coe_eq_coe.mp h2, h3⟩

/-- C1 (amended): when every supplied tool's task function resolves to an
`Ok` outcome carrying its own id, every declared dependency of a supplied
tool is itself supplied, the reverse index covers the declared edges, and the
graph is acyclic (witnessed by a ranking), `execute_parallel` terminates and
returns exactly N outcomes — one per supplied id, no duplicates and no
omissions.  As originally stated the claim is false: a task whose function
resolves to `Err` is silently dropped (see the counterexample). -/
theorem execute_parallel_complete_of_ok (g : DependencyGraph)
    (fn : Tool → Except String TaskResult) (lat : Tool → Nat) (tools : List Tool)
    (rank : Tool → Nat)
    (hnodup : tools.Nodup)
    (hok : ∀ t ∈ tools, ∃ r, fn t = Except.ok r ∧ r.tool = t)
    (hsup : ∀ t ∈ tools, ∀ d ∈ g.depsOf t, d ∈ tools)
    (hrank : ∀ t d, d ∈ g.depsOf t → rank d < rank t)
    (hcoh : ∀ u d, d ∈ g.depsOf u → u ∈ g.get_dependent_tools d) :
    ∃ fuel res,
      (ParallelScheduler.mk [] g).execute_parallel fuel tools fn lat = some res ∧
      (res.map TaskResult.tool).Perm tools ∧ res.length = tools.length ∧
      ∀ r ∈ res, fn r.tool = Except.ok r := by
  obtain ⟨fuel, res, h1, h2, h3⟩ :=
    execute_parallel_complete_aux g fn lat tools rank hnodup hok hsup hrank hcoh
  refine ⟨fuel, res, h1, h2, ?_, h3⟩
  have hlen := h2.length_eq
  rw [List.length_map] at hlen
  exact hlen

/-- Witness for C1 (amended): two independent tools whose task functions
succeed immediately give exactly two outcomes, one per id. -/
theorem execute_parallel_complete_of_ok_witness :
    ∃ fuel res,
      (ParallelScheduler.mk [] DependencyGraph.new).execute_parallel fuel
        [Tool.Homebrew, Tool.Rustup]
        (fun t => Except.ok { tool := t, success := true, output := "ok" })
        (fun _ => 0) = some res ∧
      (res.map TaskResult.tool).Perm [Tool.Homebrew, Tool.Rustup] ∧
      res.length = [Tool.Homebrew, Tool.Rustup].length ∧
      ∀ r ∈ res,
        (fun t : Tool => (Except.ok { tool := t, success := true, output := "ok" } :
          Except String TaskResult)) r.tool = Except.ok r :=
  execute_parallel_complete_of_ok DependencyGraph.new
    (fun t => Except.ok { tool := t, success := true, output := "ok" })
    (fun _ => 0) [Tool.Homebrew, Tool.Rustup] (fun _ => 0)
    (by decide)
    (fun t _ => ⟨{ tool := t, success := true, output := "ok" }, rfl, rfl⟩)
    (fun _ _ d hd => absurd hd (List.not_mem_nil d))
    (fun _ d hd => absurd hd (List.not_mem_nil d))
    (fun _ d hd => absurd hd (List.not_mem_nil d))

/-- C6: with `Y` declared to depend on `X` and `X`'s task function reporting
a failure outcome (`success = false`), `X` is still inserted into the
completed set, `Y` is still launched once `X` is completed, and the final
outcome list contains both — `X` with `success = false` and `Y` with its own
outcome. -/
theorem failed_dependency_does_not_block (X Y : Tool) (hne : X ≠ Y)
    (mX mY : String) (sY : Bool) (lat : Tool → Nat) :
    ∃ fuel res,
      (ParallelScheduler.mk []
          { dependencies := [(Y, [X])],
            reverse_dependencies := [(X, [Y])] }).execute_parallel
          fuel [X, Y]
          (fun t => if t = X then Except.ok { tool := X, success := false, output := mX }
            else Except.ok { tool := Y, success := sY, output := mY }) lat = some res ∧
      (∃ rX ∈ res, rX.tool = X ∧ rX.success = false) ∧
      (∃ rY ∈ res, rY.tool = Y ∧ rY.success = sY) ∧
      res.length = 2 := by
  have hYX : Y ≠ X := Ne.symm hne
  have hdeps : ∀ t, DependencyGraph.depsOf
      { dependencies := [(Y, [X])], reverse_dependencies := [(X, [Y])] } t =
      if Y = t then [X] else [] := by
    intro t
    unfold DependencyGraph.depsOf
    by_cases h : Y = t
    · simp [lookupKey, h]
    · simp [lookupKey, h]
  have hdept : ∀ t, DependencyGraph.get_dependent_tools
      { dependencies := [(Y, [X])], reverse_dependencies := [(X, [Y])] } t =
      if X = t then [Y] else [] := by
    intro t
    unfold DependencyGraph.get_dependent_tools
    by_cases h : X = t
    · simp [lookupKey, h]
    · simp [lookupKey, h]
  have hok : ∀ t ∈ [X, Y], ∃ r,
      (fun t => if t = X then Except.ok { tool := X, success := false, output := mX }
        else Except.ok { tool := Y, success := sY, output := mY } :
        Tool → Except String TaskResult) t = Except.ok r ∧ r.tool = t := by
    intro t ht
    rcases List.mem_cons.mp ht with h | h
    · subst h
      exact ⟨{ tool := t, success := false, output := mX }, by simp, rfl⟩
    · rw [List.mem_singleton] at h
      subst h
      refine ⟨{ tool := t, success := sY, output := mY }, ?_, rfl⟩
      simp [hYX]
  have hsup : ∀ t ∈ [X, Y], ∀ d ∈ DependencyGraph.depsOf
      { dependencies := [(Y, [X])], reverse_dependencies := [(X, [Y])] } t,
      d ∈ [X, Y] := by
    intro t _ d hd
    rw [hdeps t] at hd
    by_cases h : Y = t
    · rw [if_pos h] at hd
      rw [List.mem_singleton] at hd
      subst hd
      exact List.mem_cons_self d [Y]
    · rw [if_neg h] at hd
      cases hd
  have hrank : ∀ t d, d ∈ DependencyGraph.depsOf
      { dependencies := [(Y, [X])], reverse_dependencies := [(X, [Y])] } t →
      (fun u => if u = X then 0 else 1 : Tool → Nat) d <
        (fun u => if u = X then 0 else 1 : Tool → Nat) t := by
    intro t d hd
    rw [hdeps t] at hd
    by_cases h : Y = t
    · rw [if_pos h] at hd
      rw [List.mem_singleton] at hd
      subst hd
      rw [← h]
      simp [hYX]
    · rw [if_neg h] at hd
      cases hd
  have hcoh : ∀ u d, d ∈ DependencyGraph.depsOf
      { dependencies := [(Y, [X])], reverse_dependencies := [(X, [Y])] } u →
      u ∈ DependencyGraph.get_dependent_tools
        { dependencies := [(Y, [X])], reverse_dependencies := [(X, [Y])] } d := by
    intro u d hd
    rw [hdeps u] at hd
    by_cases h : Y = u
    · rw [if_pos h] at hd
      rw [List.mem_singleton] at hd
      subst hd
      rw [hdept d, if_pos rfl]
      exact List.mem_singleton.mpr h.symm
    · rw [if_neg h] at hd
      cases hd
  obtain ⟨fuel, res, h1, h2, h4⟩ :=
    execute_parallel_complete_aux
      { dependencies := [(Y, [X])], reverse_dependencies := [(X, [Y])] }
      (fun t => if t = X then Except.ok { tool := X, success := false, output := mX }
        else Except.ok { tool := Y, success := sY, output := mY })
      lat [X, Y] (fun u => if u = X then 0 else 1)
      (by simp [hne]) hok hsup hrank hcoh
  have h3 : res.length = 2 := by
    have hlen := h2.length_eq
    rw [List.length_map] at hlen
    exact hlen
  have hXm : X ∈ res.map TaskResult.tool := h2.mem_iff.mpr (List.mem_cons_self X [Y])
  have hYm : Y ∈ res.map TaskResult.tool :=
    h2.mem_iff.mpr (List.mem_cons_of_mem X (List.mem_singleton.mpr rfl))
  obtain ⟨rX, hrX, hrXt⟩ := List.mem_map.mp hXm
  obtain ⟨rY, hrY, hrYt⟩ := List.mem_map.mp hYm
  have hfX := h4 rX hrX
  have hfY := h4 rY hrY
  simp only at hfX hfY
  rw [hrXt, if_pos rfl] at hfX
  rw [hrYt, if_neg hYX] at hfY
  have hrXeq : { tool := X, success := false, output := mX } = rX := Except.ok.inj hfX
  have hrYeq : { tool := Y, success := sY, output := mY } = rY := Except.ok.inj hfY
  refine ⟨fuel, res, h1, ⟨rX, hrX, hrXt, ?_⟩, ⟨rY, hrY, hrYt, ?_⟩, h3⟩
  · rw [← hrXeq]
  · rw [← hrYeq]

/-- Witness for C6: `Rustup` depends on `Homebrew`, `Homebrew` fails, and the
run still reports outcomes for both. -/
theorem failed_dependency_does_not_block_witness :
    ∃ fuel res,
      (ParallelScheduler.mk []
          { dependencies := [(Tool.Rustup, [Tool.Homebrew])],
            reverse_dependencies := [(Tool.Homebrew, [Tool.Rustup])] }).execute_parallel
          fuel [Tool.Homebrew, Tool.Rustup]
          (fun t => if t = Tool.Homebrew then
              Except.ok { tool := Tool.Homebrew, success := false, output := "failed" }
            else Except.ok { tool := Tool.Rustup, success := true, output := "done" })
          (fun _ => 0) = some res ∧
      (∃ rX ∈ res, rX.tool = Tool.Homebrew ∧ rX.success = false) ∧
      (∃ rY ∈ res, rY.tool = Tool.Rustup ∧ rY.success = true) ∧
      res.length = 2 :=
  failed_dependency_does_not_block Tool.Homebrew Tool.Rustup (by decide)
    "failed" "done" true (fun _ => 0)

end Devtool
